import Mathlib

/-!
Verification of the monday-weekly single-page application core:
the id-keyed content merge (`mergeIssues`), the image scorer/filter
(`scoreImage`, `isLogoish`, `isBadExt`, `goodExt`), the article-image
candidate pipeline (`resolveArticleImage`), hash routing
(`parseHashFromString`) and the admin JSON import (`handleImport`).

JavaScript `Map` objects are embedded as association lists in first
insertion order, where `set` on an existing key replaces the value in
place; strings are embedded as `String` / `List Char`, with
case-insensitive regex substring tests embedded as substring tests on
the lowercased character list.
-/

/-- An issue record.  Only the fields the merge logic inspects are kept:
`id` is `none` when the JavaScript object lacks an `id` field (or it is
`undefined`/`null`), `some s` when it is the string `s`; `payload`
stands for the rest of the object, so that two issues with the same id
can still be distinguished as whole objects. -/
structure Issue where
  id : Option String
  payload : Nat
deriving DecidableEq, Repr

/-- The id of an issue when it is truthy in JavaScript (`i?.id`): present
and a non-empty string. -/
def truthyId (i : Issue) : Option String :=
  match i.id with
  | some s => if s = "" then none else some s
  | none => none

/-- `Map.prototype.set` on a map embedded as an association list in first
insertion order: an existing key keeps its position and gets the new
value, a new key is appended at the end. -/
def mapSet {κ : Type} [DecidableEq κ] (m : List (κ × Issue)) (k : κ) (v : Issue) :
    List (κ × Issue) :=
  if (m.map Prod.fst).contains k then
    m.map (fun p => if p.1 = k then (k, v) else p)
  else m ++ [(k, v)]

/-- One step of the `mergeIssues` loop: `if (i?.id) map.set(i.id, i)`. -/
def insertIssue (m : List (String × Issue)) (i : Issue) : List (String × Issue) :=
  match truthyId i with
  | some k => mapSet m k i
  | none => m

/-- `mergeIssues(localIssues, remoteIssues)` from the source: insert all
local entries into a fresh `Map`, then all remote entries (remote
overwrites local on an id collision), and return `[...map.values()]`. -/
def mergeIssues (localIssues remoteIssues : List Issue) : List Issue :=
  ((localIssues ++ remoteIssues).foldl insertIssue []).map Prod.snd

/-- Lookup in an association list (the value a JavaScript `Map` holds at
key `k`); used only to state properties of the merge. -/
def lookupA : List (String × Issue) → String → Option Issue
  | [], _ => none
  | p :: m, k => if p.1 = k then some p.2 else lookupA m k

/-- The last element of `xs` whose truthy id is `k`; used only to state
properties of the merge. -/
def lastWith : List Issue → String → Option Issue
  | [], _ => none
  | x :: xs, k =>
    match lastWith xs k with
    | some v => some v
    | none => if truthyId x = some k then some x else none

/-- The key list of an association list, in map iteration order; used
only to state properties of the merge. -/
def keysOf {κ : Type} (m : List (κ × Issue)) : List κ :=
  m.map Prod.fst

/-- First-occurrence deduplication of `l` appended after `acc`; the key
order of a JavaScript `Map` after inserting the elements of `l` into a
map whose keys are `acc`. -/
def dedupFrom {α : Type} [DecidableEq α] (acc : List α) (l : List α) : List α :=
  l.foldl (fun acc k => if acc.contains k then acc else acc ++ [k]) acc

/-- First-occurrence deduplication, the iteration order of a JavaScript
`Map` or `Set` built by repeated insertion; used to state properties of
the merge and to embed `new Set(...)`. -/
def dedupF {α : Type} [DecidableEq α] (l : List α) : List α :=
  dedupFrom [] l

/-- The key/value pairs a list of issues contributes to the merge map,
assuming no id collisions; used only to state properties of the merge. -/
def toPairs (xs : List Issue) : List (String × Issue) :=
  xs.filterMap (fun i => (truthyId i).map (fun k => (k, i)))

/-- Substring test on character lists: `hasSubL pat s` is true iff `pat`
occurs contiguously in `s` (the meaning of `/pat/.test(s)` for a literal
pattern). -/
def hasSubL (pat : List Char) : List Char → Bool
  | [] => pat.isEmpty
  | c :: cs => pat.isPrefixOf (c :: cs) || hasSubL pat cs

/-- Suffix test on character lists: `endsL pat s` is true iff `s` ends
with `pat` (the meaning of `/pat$/.test(s)`). -/
def endsL (pat s : List Char) : Bool :=
  pat.reverse.isPrefixOf s.reverse

/-- The lowercased character list of a string (JavaScript
`u.toLowerCase()`; the URLs scored here are ASCII, where
`Char.toLower` agrees with JavaScript). -/
def lowerOf (u : String) : List Char :=
  u.data.map Char.toLower

/-- The logo-word alternatives of the `isLogoish` regex. -/
def logoWords : List String :=
  ["logo", "favicon", "icon", "sprite", "wordmark", "lockup", "brandmark",
   "badge", "avatar", "mark"]

/-- `isLogoish(u)`: the lowercased URL contains one of the logo words. -/
def isLogoish (u : String) : Bool :=
  logoWords.any (fun w => hasSubL w.data (lowerOf u))

/-- `isBadExt(u)`: `/\.svg(\?|$)/i.test(u) || /\.gif(\?|$)/i.test(u)` —
the URL ends in `.svg` or `.gif`, or contains `.svg?` or `.gif?`,
case-insensitively. -/
def isBadExt (u : String) : Bool :=
  (endsL ".svg".data (lowerOf u) || hasSubL ".svg?".data (lowerOf u)) ||
  (endsL ".gif".data (lowerOf u) || hasSubL ".gif?".data (lowerOf u))

/-- The accepted raster/modern extensions of the `goodExt` regex
(`jpe?g` expanded to its two alternatives). -/
def goodExts : List String := ["jpg", "jpeg", "png", "webp", "avif"]

/-- `goodExt(u)`: `/\.(jpe?g|png|webp|avif)(\?|$)/i.test(u)`. -/
def goodExt (u : String) : Bool :=
  goodExts.any (fun e =>
    endsL ("." ++ e).data (lowerOf u) || hasSubL ("." ++ e ++ "?").data (lowerOf u))

/-- The content-hint alternatives of the first `scoreImage` regex. -/
def hintWords : List String :=
  ["hero", "featured", "feature", "article", "banner", "news", "press",
   "upload", "uploads", "media", "images", "photo", "screenshot", "figure",
   "cover"]

/-- The size-hint alternatives of the second `scoreImage` regex. -/
def sizeHints : List String :=
  ["1200", "1600", "2048", "1080", "w=12", "w=16", "w=20"]

/-- `scoreImage(u)`: +10 for a content-hint word, +5 for an accepted
extension, +2 for a size hint, −20 if logo-like, −10 if a disallowed
extension, all tested on the lowercased URL. -/
def scoreImage (u : String) : Int :=
  (if hintWords.any (fun w => hasSubL w.data (lowerOf u)) then (10 : Int) else 0)
  + (if goodExt u then 5 else 0)
  + (if sizeHints.any (fun w => hasSubL w.data (lowerOf u)) then 2 else 0)
  + (if isLogoish u then -20 else 0)
  + (if isBadExt u then -10 else 0)

/-- `candidates.sort((a, b) => scoreImage(b) - scoreImage(a))`: a stable
sort by score descending (JavaScript `Array.prototype.sort` is stable,
as is insertion sort). -/
def sortByScoreDesc (l : List String) : List String :=
  l.insertionSort (fun a b => scoreImage b ≤ scoreImage a)

/-- The filtered candidate set of `resolveArticleImage`:
`[...set].filter(Boolean).filter(u => !isBadExt(u)).filter(u => !isLogoish(u))`,
where the set holds the extracted URLs in first-occurrence order. -/
def surviveFilters (urls : List String) : List String :=
  (((dedupF urls).filter (fun u => u != "")).filter
      (fun u => !isBadExt u)).filter (fun u => !isLogoish u)

/-- The ranking tail of `resolveArticleImage`, applied to the extracted
candidate URLs: dedup, filter, sort by score descending, return the top
candidate if its score is at least 1, else the empty string. -/
def pickCandidate (urls : List String) : String :=
  match sortByScoreDesc (surviveFilters urls) with
  | [] => ""
  | best :: _ => if scoreImage best < 1 then "" else best

/-- `resolveArticleImage` with its I/O abstracted: `proxy` is the result
of `toJinaProxy(url)` (the empty string iff the target URL could not be
parsed), and `response` is `none` when the proxy HTTP response is not ok
(`!res.ok`) and `some urls` when it succeeded with extracted, absolutised
candidate URLs `urls`. -/
def resolveArticleImage (proxy : String) (response : Option (List String)) : String :=
  if proxy == "" then ""
  else
    match response with
    | none => ""
    | some urls => pickCandidate urls

/-- A parsed route: `{ name, params }`. -/
structure Route where
  name : String
  params : List String
deriving DecidableEq, Repr

/-- `String(hashRaw).replace(/^#/, "")`: remove one leading `#`. -/
def stripLeadHash (s : String) : String :=
  match s.data with
  | '#' :: rest => String.mk rest
  | _ => s

/-- Split a character list on a separator character, JavaScript
`s.split(sep)`: `""` splits to `[""]`, and empty fields are kept. -/
def splitOnCharAux (sep : Char) : List Char → List Char → List (List Char)
  | [], acc => [acc.reverse]
  | x :: xs, acc =>
    if x = sep then acc.reverse :: splitOnCharAux sep xs []
    else splitOnCharAux sep xs (x :: acc)

/-- `s.split(sep)` on the character list of `s`. -/
def splitOnChar (sep : Char) (l : List Char) : List (List Char) :=
  splitOnCharAux sep l []

/-- `hash.split("/").filter(Boolean)` applied after stripping the
leading `#`. -/
def segmentsOf (hashRaw : String) : List String :=
  ((splitOnChar '/' (stripLeadHash hashRaw).data).map String.mk).filter
    (fun p => p != "")

/-- `parseHashFromString`: route to the issue view when the first
segment is `"issue"` and a truthy second segment exists, else home. -/
def parseHashFromString (hashRaw : String) : Route :=
  match segmentsOf hashRaw with
  | p0 :: p1 :: _ =>
    if p0 == "issue" && p1 != "" then ⟨"issue", [p1]⟩ else ⟨"home", []⟩
  | _ => ⟨"home", []⟩

/-- The outcome of `JSON.parse` on the pasted import text, abstracted:
`truthyVal` is the truthiness of the parsed value, and `issues` is
`some l` iff the parsed value has an `issues` field that is an array
(of issue objects `l`), `none` otherwise. -/
structure ParsedPayload where
  truthyVal : Bool
  issues : Option (List Issue)
deriving DecidableEq, Repr

/-- The error message thrown when the payload lacks an `issues` array. -/
def missingIssuesMsg : String := "缺少 issues 数组"

/-- The error message thrown when some issue lacks a truthy `id`. -/
def missingIdMsg : String := "每个 issue 需要 id (YYYY-MM-DD_YYYY-MM-DD)"

/-- The backslash hint appended to the error message when the pasted
text contains a backslash followed by a character that is not a legal
JSON escape. -/
def backslashHint : String := " 提示：检查反斜杠（使用 \\ 或合法的 \\uXXXX 转义）。"

/-- The validation cascade of `handleImport`: a `JSON.parse` exception
(`.error msg`) propagates; a falsy payload or a payload without an
`issues` array throws `missingIssuesMsg`; an issue without a truthy id
throws `missingIdMsg`; otherwise the issue list is accepted. -/
def validateImport : Except String ParsedPayload → Except String (List Issue)
  | .error msg => .error msg
  | .ok pl =>
    if !pl.truthyVal then .error missingIssuesMsg
    else
      match pl.issues with
      | none => .error missingIssuesMsg
      | some l =>
        if l.all (fun i => (truthyId i).isSome) then .ok l
        else .error missingIdMsg

/-- The legal JSON escape characters, the character class of the hint
regex `/\\[^"\\/bfnrtu]/`. -/
def jsonEscapeChars : List Char := ['"', '\\', '/', 'b', 'f', 'n', 'r', 't', 'u']

/-- `/\\[^"\\/bfnrtu]/.test(text)`: the text contains a backslash
followed by a character that is not a legal JSON escape. -/
def badBackslash : List Char → Bool
  | [] => false
  | '\\' :: c :: rest =>
    if jsonEscapeChars.contains c then badBackslash (c :: rest) else true
  | _ :: rest => badBackslash rest

/-- `onImport` at the application root: build a `Map` of the previous
issues keyed by raw `id`, set every imported issue by its `id`, and
expose `[...existing.values()]`. -/
def applyImport (prev imported : List Issue) : List Issue :=
  (imported.foldl (fun m i => mapSet m i.id i)
    (prev.foldl (fun m i => mapSet m i.id i) [])).map Prod.snd

/-- `handleImport`, with `JSON.parse` abstracted as `p` and the raw
pasted text as `text`: on success the payload is merged into the store
and no error is shown; on any validation failure the store is unchanged
and the error message is shown, extended by the backslash hint when the
text matches the hint regex. -/
def handleImport (p : Except String ParsedPayload) (text : List Char)
    (store : List Issue) : List Issue × Option String :=
  match validateImport p with
  | .ok issues => (applyImport store issues, none)
  | .error msg =>
    (store, some (msg ++ if badBackslash text then backslashHint else ""))

/-! ### Association-list lemmas for the merge map -/

theorem lookupA_append (m₁ m₂ : List (String × Issue)) (k : String) :
    lookupA (m₁ ++ m₂) k =
      match lookupA m₁ k with
      | some v => some v
      | none => lookupA m₂ k := by
  induction m₁ with
  | nil => cases h : lookupA m₂ k <;> simp [lookupA, h]
  | cons p m ih =>
    simp only [List.cons_append, lookupA]
    by_cases h : p.1 = k <;> simp [h, ih]

theorem lookupA_eq_none (m : List (String × Issue)) (k : String)
    (h : k ∉ keysOf m) : lookupA m k = none := by
  induction m with
  | nil => rfl
  | cons p m ih =>
    simp only [keysOf, List.map_cons, List.mem_cons, not_or] at h
    simp only [lookupA, if_neg (fun hh : p.1 = k => h.1 hh.symm)]
    exact ih h.2

theorem keysOf_mapSet (m : List (String × Issue)) (k : String) (v : Issue) :
    keysOf (mapSet m k v) =
      if (keysOf m).contains k then keysOf m else keysOf m ++ [k] := by
  unfold mapSet keysOf
  split
  · next h =>
    rw [List.map_map]
    refine List.map_congr_left (fun p _ => ?_)
    by_cases hp : p.1 = k
    · simp [Function.comp, hp]
    · simp [Function.comp, hp]
  · next h => simp

theorem lookupA_replace_self (m : List (String × Issue)) (k : String) (v : Issue)
    (h : k ∈ keysOf m) :
    lookupA (m.map (fun p => if p.1 = k then (k, v) else p)) k = some v := by
  induction m with
  | nil => simp [keysOf] at h
  | cons p m ih =>
    by_cases hp : p.1 = k
    · simp [lookupA, hp]
    · have hmem : k ∈ keysOf m := by
        simp only [keysOf, List.map_cons, List.mem_cons] at h
        exact h.resolve_left (fun hh => hp hh.symm)
      simp [lookupA, hp, ih hmem]

theorem lookupA_replace_ne (m : List (String × Issue)) (k : String) (v : Issue)
    (k' : String) (h : k' ≠ k) :
    lookupA (m.map (fun p => if p.1 = k then (k, v) else p)) k' = lookupA m k' := by
  have hne : ¬k = k' := fun hh => h hh.symm
  induction m with
  | nil => rfl
  | cons p m ih =>
    by_cases hp : p.1 = k
    · simp [lookupA, hp, hne, ih]
    · simp only [List.map_cons, if_neg hp, lookupA]
      by_cases hp' : p.1 = k' <;> simp [hp', ih]

theorem lookupA_mapSet_self (m : List (String × Issue)) (k : String) (v : Issue) :
    lookupA (mapSet m k v) k = some v := by
  unfold mapSet
  split
  · next h => exact lookupA_replace_self m k v (List.elem_iff.mp h)
  · next h =>
    rw [lookupA_append, lookupA_eq_none m k (fun hm => h (List.elem_iff.mpr hm))]
    simp [lookupA]

theorem lookupA_mapSet_ne (m : List (String × Issue)) (k : String) (v : Issue)
    (k' : String) (h : k' ≠ k) :
    lookupA (mapSet m k v) k' = lookupA m k' := by
  have hne : ¬k = k' := fun hh => h hh.symm
  unfold mapSet
  split
  · exact lookupA_replace_ne m k v k' h
  · rw [lookupA_append]
    cases hm : lookupA m k' <;> simp [lookupA, hne]

theorem lookupA_insertIssue (m : List (String × Issue)) (i : Issue) (k : String) :
    lookupA (insertIssue m i) k =
      if truthyId i = some k then some i else lookupA m k := by
  unfold insertIssue
  cases h : truthyId i with
  | none => simp
  | some k' =>
    by_cases hk : k' = k
    · subst hk; simp [lookupA_mapSet_self]
    · simp [lookupA_mapSet_ne m k' i k (Ne.symm hk), hk]

theorem keysOf_insertIssue (m : List (String × Issue)) (i : Issue) :
    keysOf (insertIssue m i) =
      match truthyId i with
      | some k => if (keysOf m).contains k then keysOf m else keysOf m ++ [k]
      | none => keysOf m := by
  unfold insertIssue
  cases h : truthyId i <;> simp [keysOf_mapSet]

theorem lastWith_mem (xs : List Issue) (k : String) (v : Issue)
    (h : lastWith xs k = some v) : v ∈ xs ∧ truthyId v = some k := by
  induction xs with
  | nil => simp [lastWith] at h
  | cons x xs ih =>
    rw [lastWith] at h
    cases h2 : lastWith xs k with
    | some w =>
      rw [h2] at h
      obtain rfl : w = v := by injection h
      obtain ⟨h3, h4⟩ := ih h2
      exact ⟨.tail _ h3, h4⟩
    | none =>
      rw [h2] at h
      by_cases ht : truthyId x = some k
      · rw [if_pos ht] at h
        obtain rfl : x = v := by injection h
        exact ⟨.head _, ht⟩
      · rw [if_neg ht] at h; cases h

theorem lastWith_append (a b : List Issue) (k : String) :
    lastWith (a ++ b) k =
      match lastWith b k with
      | some v => some v
      | none => lastWith a k := by
  induction a with
  | nil => cases h : lastWith b k <;> simp [lastWith, h]
  | cons x a ih =>
    cases h : lastWith b k with
    | some v =>
      have ha : lastWith (a ++ b) k = some v := by rw [ih, h]
      simp only [List.cons_append, lastWith, List.append_eq, ha]
    | none =>
      have ha : lastWith (a ++ b) k = lastWith a k := by rw [ih, h]
      simp only [List.cons_append, lastWith, List.append_eq, ha]

theorem lookupA_foldl (xs : List Issue) (m : List (String × Issue)) (k : String) :
    lookupA (xs.foldl insertIssue m) k =
      match lastWith xs k with
      | some v => some v
      | none => lookupA m k := by
  induction xs generalizing m with
  | nil => simp [lastWith]
  | cons x xs ih =>
    simp only [List.foldl_cons, ih, lastWith]
    cases h : lastWith xs k with
    | some v => simp
    | none =>
      rw [lookupA_insertIssue]
      by_cases ht : truthyId x = some k <;> simp [ht]

theorem keysOf_foldl (xs : List Issue) (m : List (String × Issue)) :
    keysOf (xs.foldl insertIssue m) = dedupFrom (keysOf m) (xs.filterMap truthyId) := by
  induction xs generalizing m with
  | nil => rfl
  | cons x xs ih =>
    rw [List.foldl_cons, ih, List.filterMap_cons]
    cases h : truthyId x with
    | none => rw [keysOf_insertIssue, h]
    | some k =>
      rw [keysOf_insertIssue, h]
      rfl

theorem nodup_dedupFrom {α : Type} [DecidableEq α] (l acc : List α)
    (h : acc.Nodup) : (dedupFrom acc l).Nodup := by
  induction l generalizing acc with
  | nil => exact h
  | cons k l ih =>
    rw [dedupFrom, List.foldl_cons]
    by_cases hk : acc.contains k
    · rw [if_pos hk]; exact ih acc h
    · rw [if_neg hk]
      refine ih (acc ++ [k]) ?_
      have : k ∉ acc := fun hm => hk (List.elem_iff.mpr hm)
      simp [List.nodup_append, h, this]

theorem mem_dedupFrom {α : Type} [DecidableEq α] (l acc : List α) (k : α) :
    k ∈ dedupFrom acc l ↔ k ∈ acc ∨ k ∈ l := by
  induction l generalizing acc with
  | nil => simp [dedupFrom]
  | cons a l ih =>
    rw [dedupFrom, List.foldl_cons]
    by_cases h : acc.contains a
    · rw [if_pos h]
      have ha : a ∈ acc := List.elem_iff.mp h
      rw [show l.foldl _ acc = dedupFrom acc l from rfl, ih]
      constructor
      · rintro (h1 | h1)
        · exact Or.inl h1
        · exact Or.inr (.tail _ h1)
      · rintro (h1 | h1)
        · exact Or.inl h1
        · rcases List.mem_cons.mp h1 with rfl | h1
          · exact Or.inl ha
          · exact Or.inr h1
    · rw [if_neg h]
      rw [show l.foldl _ (acc ++ [a]) = dedupFrom (acc ++ [a]) l from rfl, ih]
      simp only [List.mem_append, List.mem_singleton, List.mem_cons]
      tauto

theorem dedupFrom_of_subset {α : Type} [DecidableEq α] (l acc : List α)
    (h : ∀ k ∈ l, k ∈ acc) : dedupFrom acc l = acc := by
  induction l with
  | nil => rfl
  | cons a l ih =>
    rw [dedupFrom, List.foldl_cons,
      if_pos (List.elem_iff.mpr (h a (.head _)))]
    exact ih (fun k hk => h k (.tail _ hk))

theorem pairInv_mapSet (m : List (String × Issue)) (k : String) (v : Issue)
    (hm : ∀ p ∈ m, truthyId p.2 = some p.1) (hv : truthyId v = some k) :
    ∀ p ∈ mapSet m k v, truthyId p.2 = some p.1 := by
  unfold mapSet
  split
  · intro p hp
    rcases List.mem_map.mp hp with ⟨q, hq, rfl⟩
    by_cases h : q.1 = k
    · simp [h, hv]
    · simp [h, hm q hq]
  · intro p hp
    rcases List.mem_append.mp hp with h | h
    · exact hm p h
    · rw [List.mem_singleton] at h
      subst h
      exact hv

theorem pairInv_foldl (xs : List Issue) (m : List (String × Issue))
    (hm : ∀ p ∈ m, truthyId p.2 = some p.1) :
    ∀ p ∈ xs.foldl insertIssue m, truthyId p.2 = some p.1 := by
  induction xs generalizing m with
  | nil => exact hm
  | cons x xs ih =>
    rw [List.foldl_cons]
    refine ih _ ?_
    unfold insertIssue
    cases h : truthyId x with
    | none => exact hm
    | some k => exact pairInv_mapSet m k x hm h

theorem find?_map_snd (m : List (String × Issue)) (k : String)
    (hm : ∀ p ∈ m, truthyId p.2 = some p.1) :
    (m.map Prod.snd).find? (fun i => truthyId i == some k) = lookupA m k := by
  induction m with
  | nil => rfl
  | cons p m ih =>
    have hp := hm p (.head _)
    rw [List.map_cons, List.find?_cons, lookupA]
    by_cases h : p.1 = k
    · subst h; simp [hp]
    · have hb : (truthyId p.2 == some k) = false := by
        simp [hp, h]
      rw [hb, if_neg h]
      exact ih (fun q hq => hm q (.tail _ hq))

theorem find?_eq_of_mem_nodup (l : List Issue) (k : String) (i : Issue)
    (hnd : (l.map truthyId).Nodup) (hi : i ∈ l) (hk : truthyId i = some k) :
    l.find? (fun j => truthyId j == some k) = some i := by
  induction l with
  | nil => simp at hi
  | cons x l ih =>
    rw [List.map_cons, List.nodup_cons] at hnd
    rcases List.mem_cons.mp hi with rfl | hmem
    · simp [List.find?_cons, hk]
    · by_cases hx : truthyId x = some k
      · exact absurd (by rw [hx, ← hk]; exact List.mem_map_of_mem truthyId hmem) hnd.1
      · have hb : (truthyId x == some k) = false := by simp [hx]
        rw [List.find?_cons, hb]
        exact ih hnd.2 hmem

theorem ext_assoc (m₁ m₂ : List (String × Issue))
    (hk : keysOf m₁ = keysOf m₂) (hnd : (keysOf m₁).Nodup)
    (hl : ∀ k, lookupA m₁ k = lookupA m₂ k) : m₁ = m₂ := by
  induction m₁ generalizing m₂ with
  | nil =>
    cases m₂ with
    | nil => rfl
    | cons q m₂ => simp [keysOf] at hk
  | cons p m₁ ih =>
    cases m₂ with
    | nil => simp [keysOf] at hk
    | cons q m₂ =>
      simp only [keysOf, List.map_cons, List.cons.injEq] at hk
      obtain ⟨hk1, hk2⟩ := hk
      rw [keysOf, List.map_cons, List.nodup_cons] at hnd
      have hv : p.2 = q.2 := by
        have hh := hl p.1
        rw [lookupA, lookupA, if_pos rfl, if_pos hk1.symm] at hh
        injection hh
      have htl : ∀ k, lookupA m₁ k = lookupA m₂ k := by
        intro k
        by_cases h : k = p.1
        · subst h
          have h2 : p.1 ∉ keysOf m₂ := by
            rw [keysOf, ← hk2]
            exact hnd.1
          rw [lookupA_eq_none m₁ _ hnd.1, lookupA_eq_none m₂ _ h2]
        · have hh := hl k
          rw [lookupA, lookupA, if_neg (fun hp => h hp.symm),
            if_neg (fun hq => h (hk1 ▸ hq.symm))] at hh
          exact hh
      have htail := ih m₂ hk2 hnd.2 htl
      have hpq : p = q := Prod.ext hk1 hv
      rw [hpq, htail]

theorem foldl_insert_self (q : List (String × Issue)) (acc : List (String × Issue))
    (hnd : (keysOf (acc ++ q)).Nodup) (hq : ∀ p ∈ q, truthyId p.2 = some p.1) :
    (q.map Prod.snd).foldl insertIssue acc = acc ++ q := by
  induction q generalizing acc with
  | nil => simp
  | cons p q ih =>
    rw [List.map_cons, List.foldl_cons]
    have hp := hq p (.head _)
    have hnotin : p.1 ∉ keysOf acc := by
      rw [keysOf, List.map_append, List.map_cons] at hnd
      rw [List.nodup_append] at hnd
      intro hmem
      exact hnd.2.2 hmem (.head _)
    have hcF : ((acc.map Prod.fst).contains p.1) = false := by
      rw [Bool.eq_false_iff]
      intro hc
      exact hnotin (List.elem_iff.mp hc)
    have hins : insertIssue acc p.2 = acc ++ [p] := by
      unfold insertIssue
      rw [hp]
      show mapSet acc p.1 p.2 = acc ++ [p]
      unfold mapSet
      rw [hcF]
      simp
    rw [hins]
    have hre : acc ++ p :: q = (acc ++ [p]) ++ q := by simp
    rw [hre] at hnd
    rw [ih (acc ++ [p]) hnd (fun r hr => hq r (.tail _ hr)), hre]

theorem keysOf_foldl_covered (xs : List Issue) (m : List (String × Issue))
    (h : ∀ i ∈ xs, ∀ k, truthyId i = some k → k ∈ keysOf m) :
    keysOf (xs.foldl insertIssue m) = keysOf m := by
  rw [keysOf_foldl]
  refine dedupFrom_of_subset _ _ (fun k hk => ?_)
  rcases List.mem_filterMap.mp hk with ⟨i, hi, hti⟩
  exact h i hi k hti

theorem lastWith_isSome_of_mem (xs : List Issue) (i : Issue) (k : String)
    (hi : i ∈ xs) (hk : truthyId i = some k) : (lastWith xs k).isSome = true := by
  induction xs with
  | nil => simp at hi
  | cons x xs ih =>
    rw [lastWith]
    rcases List.mem_cons.mp hi with rfl | hmem
    · cases h2 : lastWith xs k
      · simp [hk]
      · simp
    · have hs := ih hmem
      cases h2 : lastWith xs k
      · rw [h2] at hs; simp at hs
      · simp

/-! ### Characterisation of the merge -/

theorem mergeIssues_find (L R : List Issue) (k : String) :
    (mergeIssues L R).find? (fun i => truthyId i == some k) = lastWith (L ++ R) k := by
  unfold mergeIssues
  rw [find?_map_snd _ k (pairInv_foldl _ [] (by simp))]
  rw [lookupA_foldl]
  cases h : lastWith (L ++ R) k <;> simp [lookupA]

theorem mergeIssues_map_truthyId (L R : List Issue) :
    (mergeIssues L R).map truthyId =
      (dedupF ((L ++ R).filterMap truthyId)).map some := by
  unfold mergeIssues
  rw [List.map_map]
  have hinv := pairInv_foldl (L ++ R) [] (by simp)
  have hcg : ((L ++ R).foldl insertIssue []).map (truthyId ∘ Prod.snd) =
      ((L ++ R).foldl insertIssue []).map (some ∘ Prod.fst) :=
    List.map_congr_left (fun p hp => by simp [Function.comp, hinv p hp])
  rw [hcg, ← List.map_map]
  rw [show ((L ++ R).foldl insertIssue []).map Prod.fst =
    keysOf ((L ++ R).foldl insertIssue []) from rfl]
  rw [keysOf_foldl]
  rfl

theorem mem_mergeIssues_truthy (L R : List Issue) (k : String) :
    (∃ i ∈ mergeIssues L R, truthyId i = some k) ↔
      ∃ i ∈ L ++ R, truthyId i = some k := by
  constructor
  · rintro ⟨i, hi, hk⟩
    have : some k ∈ (mergeIssues L R).map truthyId := by
      rw [← hk]
      exact List.mem_map_of_mem truthyId hi
    rw [mergeIssues_map_truthyId] at this
    rcases List.mem_map.mp this with ⟨k', hk', he⟩
    have hkk : k' = k := by injection he
    rw [hkk] at hk'
    have : k ∈ (L ++ R).filterMap truthyId := by
      rw [dedupF] at hk'
      exact ((mem_dedupFrom _ _ _).mp hk').resolve_left (by simp)
    rcases List.mem_filterMap.mp this with ⟨i', hi', ht⟩
    exact ⟨i', hi', ht⟩
  · rintro ⟨i, hi, hk⟩
    have hlw : (lastWith (L ++ R) k).isSome := lastWith_isSome_of_mem _ i k hi hk
    rcases Option.isSome_iff_exists.mp hlw with ⟨v, hv⟩
    have hf := mergeIssues_find L R k
    rw [hv] at hf
    have hmem := List.mem_of_find?_eq_some hf
    have hpred := List.find?_some hf
    refine ⟨v, hmem, ?_⟩
    simpa using hpred

theorem merge_foldl_fixed (L R : List Issue) :
    R.foldl insertIssue ((L ++ R).foldl insertIssue []) =
      (L ++ R).foldl insertIssue [] := by
  have hnd : (keysOf ((L ++ R).foldl insertIssue [])).Nodup := by
    rw [keysOf_foldl]
    exact nodup_dedupFrom _ _ List.nodup_nil
  have hcover : ∀ i ∈ R, ∀ k, truthyId i = some k →
      k ∈ keysOf ((L ++ R).foldl insertIssue []) := by
    intro i hi k hk
    rw [keysOf_foldl, show keysOf ([] : List (String × Issue)) = [] from rfl]
    refine (mem_dedupFrom _ _ _).mpr (Or.inr ?_)
    exact List.mem_filterMap.mpr ⟨i, List.mem_append.mpr (Or.inr hi), hk⟩
  apply ext_assoc
  · exact keysOf_foldl_covered R _ hcover
  · rw [keysOf_foldl_covered R _ hcover]
    exact hnd
  · intro k
    rw [lookupA_foldl]
    cases h : lastWith R k with
    | none => rfl
    | some v =>
      have hl : lastWith (L ++ R) k = some v := by
        rw [lastWith_append, h]
      have hl2 : lookupA ((L ++ R).foldl insertIssue []) k = some v := by
        rw [lookupA_foldl, hl]
      show some v = lookupA ((L ++ R).foldl insertIssue []) k
      exact hl2.symm

theorem toPairs_map_snd (xs : List Issue) (h : ∀ i ∈ xs, (truthyId i).isSome) :
    (toPairs xs).map Prod.snd = xs := by
  induction xs with
  | nil => rfl
  | cons x xs ih =>
    rw [toPairs, List.filterMap_cons]
    cases ht : truthyId x with
    | none => exact absurd (h x (.head _)) (by simp [ht])
    | some k =>
      simp only [ht, Option.map_some', List.map_cons]
      exact congrArg (List.cons x) (ih (fun i hi => h i (.tail _ hi)))

theorem keysOf_toPairs (xs : List Issue) :
    keysOf (toPairs xs) = xs.filterMap truthyId := by
  induction xs with
  | nil => rfl
  | cons x xs ih =>
    rw [toPairs, List.filterMap_cons, List.filterMap_cons]
    cases ht : truthyId x with
    | none => simpa using ih
    | some k =>
      simp only [ht, Option.map_some']
      show k :: keysOf (toPairs xs) = k :: xs.filterMap truthyId
      rw [ih]

theorem pairInv_toPairs (xs : List Issue) :
    ∀ p ∈ toPairs xs, truthyId p.2 = some p.1 := by
  intro p hp
  rcases List.mem_filterMap.mp hp with ⟨i, hi, hf⟩
  cases ht : truthyId i with
  | none => rw [ht] at hf; simp at hf
  | some k =>
    rw [ht] at hf
    simp only [Option.map_some'] at hf
    obtain rfl : (k, i) = p := by injection hf
    simpa using ht

theorem nodup_filterMap_truthyId (xs : List Issue)
    (h : (xs.map truthyId).Nodup) : (xs.filterMap truthyId).Nodup := by
  induction xs with
  | nil => exact List.nodup_nil
  | cons x xs ih =>
    rw [List.map_cons, List.nodup_cons] at h
    rw [List.filterMap_cons]
    cases ht : truthyId x with
    | none => exact ih h.2
    | some k =>
      show (k :: xs.filterMap truthyId).Nodup
      rw [List.nodup_cons]
      refine ⟨?_, ih h.2⟩
      intro hk
      rcases List.mem_filterMap.mp hk with ⟨i, hi, hti⟩
      exact h.1 (by rw [ht, ← hti]; exact List.mem_map_of_mem truthyId hi)

theorem lookupA_toPairs (xs : List Issue) (k : String)
    (h : (xs.map truthyId).Nodup) : lookupA (toPairs xs) k = lastWith xs k := by
  induction xs with
  | nil => rfl
  | cons x xs ih =>
    rw [List.map_cons, List.nodup_cons] at h
    cases ht : truthyId x with
    | none =>
      have hgoal : lookupA (toPairs (x :: xs)) k = lookupA (toPairs xs) k := by
        rw [toPairs, List.filterMap_cons, ht]
        rfl
      rw [hgoal, ih h.2, lastWith, ht]
      cases h2 : lastWith xs k <;> simp
    | some k' =>
      have hgoal : lookupA (toPairs (x :: xs)) k =
          if k' = k then some x else lookupA (toPairs xs) k := by
        rw [toPairs, List.filterMap_cons, ht]
        rfl
      rw [hgoal, lastWith, ht]
      by_cases hk : k' = k
      · subst hk
        rw [if_pos rfl]
        cases h2 : lastWith xs k' with
        | some w =>
          exfalso
          obtain ⟨hw1, hw2⟩ := lastWith_mem xs k' w h2
          exact h.1 (by rw [ht, ← hw2]; exact List.mem_map_of_mem truthyId hw1)
        | none => simp
      · rw [if_neg hk, ih h.2]
        cases h2 : lastWith xs k <;> simp [hk]

/-! ### Sorting lemmas for the candidate ranking -/

theorem sortByScoreDesc_mem (l : List String) (x : String) :
    x ∈ sortByScoreDesc l ↔ x ∈ l :=
  List.mem_insertionSort _

theorem sortByScoreDesc_sorted (l : List String) :
    (sortByScoreDesc l).Sorted (fun a b => scoreImage b ≤ scoreImage a) := by
  haveI ht : IsTotal String (fun a b => scoreImage b ≤ scoreImage a) :=
    ⟨fun a b => le_total (scoreImage b) (scoreImage a)⟩
  haveI htr : IsTrans String (fun a b => scoreImage b ≤ scoreImage a) :=
    ⟨fun a b c hab hbc => le_trans hbc hab⟩
  exact List.sorted_insertionSort _ l

theorem sortByScoreDesc_head_max (l : List String) (b : String) (t : List String)
    (h : sortByScoreDesc l = b :: t) : ∀ v ∈ l, scoreImage v ≤ scoreImage b := by
  intro v hv
  have hs := sortByScoreDesc_sorted l
  rw [h] at hs
  have hv' : v ∈ b :: t := by
    rw [← h]
    exact (sortByScoreDesc_mem l v).mpr hv
  rcases List.mem_cons.mp hv' with rfl | hv'
  · exact le_refl _
  · exact List.rel_of_sorted_cons hs v hv'

/-! ### Claim theorems: the merge -/

/-- C1: for issue lists `L`, `R` in which every entry has a truthy id,
`mergeIssues L R` has pairwise-distinct ids, contains exactly one entry
per id in the union of the ids of `L` and `R`, and for every id present
in both lists the surviving entry is the remote entry (the last `R`
entry with that id, a whole object from `R`), never the `L` entry. -/
theorem claim1_merge_union_remote_wins (L R : List Issue)
    (hL : ∀ i ∈ L, (truthyId i).isSome) (hR : ∀ i ∈ R, (truthyId i).isSome) :
    ((mergeIssues L R).map truthyId).Nodup
    ∧ (∀ k : String, (∃ i ∈ mergeIssues L R, truthyId i = some k) ↔
        ((∃ i ∈ L, truthyId i = some k) ∨ ∃ i ∈ R, truthyId i = some k))
    ∧ ∀ k : String, ∀ i ∈ mergeIssues L R,
        (∃ j ∈ L, truthyId j = some k) → (∃ j ∈ R, truthyId j = some k) →
        truthyId i = some k → i ∈ R ∧ lastWith R k = some i := by
  have hnd : ((mergeIssues L R).map truthyId).Nodup := by
    rw [mergeIssues_map_truthyId]
    exact List.Nodup.map (Option.some_injective _)
      (nodup_dedupFrom _ _ List.nodup_nil)
  refine ⟨hnd, ?_, ?_⟩
  · intro k
    rw [mem_mergeIssues_truthy]
    constructor
    · rintro ⟨i, hi, hk⟩
      rcases List.mem_append.mp hi with h | h
      · exact Or.inl ⟨i, h, hk⟩
      · exact Or.inr ⟨i, h, hk⟩
    · rintro (⟨i, hi, hk⟩ | ⟨i, hi, hk⟩)
      · exact ⟨i, List.mem_append.mpr (Or.inl hi), hk⟩
      · exact ⟨i, List.mem_append.mpr (Or.inr hi), hk⟩
  · rintro k i hi - ⟨j, hj, hjk⟩ hk
    have hfind : (mergeIssues L R).find? (fun x => truthyId x == some k) = some i :=
      find?_eq_of_mem_nodup _ k i hnd hi hk
    have hsome := lastWith_isSome_of_mem R j k hj hjk
    rcases Option.isSome_iff_exists.mp hsome with ⟨w, hw⟩
    have hLR : lastWith (L ++ R) k = some w := by
      rw [lastWith_append, hw]
    have : some w = some i := by
      rw [← hLR, ← mergeIssues_find L R k, hfind]
    obtain rfl : w = i := by injection this
    exact ⟨(lastWith_mem R k w hw).1, hw⟩

/-- Witness for C1 on the TestPanel example: local `A`, `B` and remote
`B'`, `C`; the surviving `B`-entry is the remote one. -/
theorem claim1_witness :
    (⟨some "B", 22⟩ : Issue) ∈ [(⟨some "B", 22⟩ : Issue), ⟨some "C", 3⟩]
    ∧ lastWith [(⟨some "B", 22⟩ : Issue), ⟨some "C", 3⟩] "B" = some ⟨some "B", 22⟩ :=
  (claim1_merge_union_remote_wins [⟨some "A", 1⟩, ⟨some "B", 2⟩]
      [⟨some "B", 22⟩, ⟨some "C", 3⟩] (by decide) (by decide)).2.2 "B"
    ⟨some "B", 22⟩ (by decide) (by decide) (by decide) (by decide)

/-- C2: for arbitrary issue lists (entries may lack an id or carry a
falsy one), every element of the merge has a truthy id — falsy-id
entries are silently dropped — and the ids of the merge are pairwise
distinct. -/
theorem claim2_merge_ids_truthy_nodup (L R : List Issue) :
    (∀ i ∈ mergeIssues L R, (truthyId i).isSome)
    ∧ ((mergeIssues L R).map truthyId).Nodup := by
  constructor
  · intro i hi
    rcases List.mem_map.mp hi with ⟨p, hp, rfl⟩
    rw [pairInv_foldl (L ++ R) [] (by simp) p hp]
    rfl
  · rw [mergeIssues_map_truthyId]
    exact List.Nodup.map (Option.some_injective _)
      (nodup_dedupFrom _ _ List.nodup_nil)

/-- Witness for C2: a no-id entry and an empty-id entry are dropped and
the surviving entry's id is truthy. -/
theorem claim2_witness :
    (truthyId ⟨some "A", 1⟩).isSome :=
  (claim2_merge_ids_truthy_nodup [⟨none, 5⟩, ⟨some "", 6⟩] [⟨some "A", 1⟩]).1
    ⟨some "A", 1⟩ (by decide)

/-- C3: re-merging the merge with the same remote list is a fixed
point, including the order of the resulting list. -/
theorem claim3_merge_fixed_point (L R : List Issue) :
    mergeIssues (mergeIssues L R) R = mergeIssues L R := by
  have hinv := pairInv_foldl (L ++ R) ([] : List (String × Issue)) (by simp)
  have hnd : (keysOf ((L ++ R).foldl insertIssue [])).Nodup := by
    rw [keysOf_foldl]
    exact nodup_dedupFrom _ _ List.nodup_nil
  have hself : (((L ++ R).foldl insertIssue []).map Prod.snd).foldl insertIssue [] =
      (L ++ R).foldl insertIssue [] := by
    have h := foldl_insert_self ((L ++ R).foldl insertIssue []) [] (by simpa using hnd) hinv
    simpa using h
  calc mergeIssues (mergeIssues L R) R
      = (R.foldl insertIssue ((mergeIssues L R).foldl insertIssue [])).map Prod.snd := by
        rw [mergeIssues, List.foldl_append]
    _ = (R.foldl insertIssue ((L ++ R).foldl insertIssue [])).map Prod.snd := by
        rw [show (mergeIssues L R).foldl insertIssue [] =
          (L ++ R).foldl insertIssue [] from hself]
    _ = ((L ++ R).foldl insertIssue []).map Prod.snd := by rw [merge_foldl_fixed]
    _ = mergeIssues L R := rfl

/-- Witness for C3 on the TestPanel example lists. -/
theorem claim3_witness :
    mergeIssues
        (mergeIssues [⟨some "A", 1⟩, ⟨some "B", 2⟩] [⟨some "B", 22⟩, ⟨some "C", 3⟩])
        [⟨some "B", 22⟩, ⟨some "C", 3⟩]
      = mergeIssues [⟨some "A", 1⟩, ⟨some "B", 2⟩] [⟨some "B", 22⟩, ⟨some "C", 3⟩] :=
  claim3_merge_fixed_point _ _

/-- C9: a store satisfying the persisted-store invariant (truthy,
pairwise-distinct ids) is merge-equal to itself: re-importing the
exported issue list leaves the store literally unchanged. -/
theorem claim9_roundtrip_merge_self (S : List Issue)
    (h1 : ∀ i ∈ S, (truthyId i).isSome) (h2 : (S.map truthyId).Nodup) :
    mergeIssues S S = S := by
  have hinv := pairInv_toPairs S
  have hknd : (keysOf (toPairs S)).Nodup := by
    rw [keysOf_toPairs]
    exact nodup_filterMap_truthyId S h2
  have hfold : S.foldl insertIssue [] = toPairs S := by
    have h := foldl_insert_self (toPairs S) [] (by simpa using hknd) hinv
    rw [toPairs_map_snd S h1] at h
    simpa using h
  have hcover : ∀ i ∈ S, ∀ k, truthyId i = some k → k ∈ keysOf (toPairs S) := by
    intro i hi k hk
    rw [keysOf_toPairs]
    exact List.mem_filterMap.mpr ⟨i, hi, hk⟩
  have heq : S.foldl insertIssue (toPairs S) = toPairs S := by
    apply ext_assoc
    · exact keysOf_foldl_covered S _ hcover
    · rw [keysOf_foldl_covered S _ hcover]
      exact hknd
    · intro k
      rw [lookupA_foldl]
      cases h : lastWith S k with
      | none => rfl
      | some v =>
        have hlt := lookupA_toPairs S k h2
        rw [h] at hlt
        show some v = lookupA (toPairs S) k
        exact hlt.symm
  show ((S ++ S).foldl insertIssue []).map Prod.snd = S
  rw [List.foldl_append, hfold, heq]
  exact toPairs_map_snd S h1

/-- Witness for C9 on a two-issue store. -/
theorem claim9_witness :
    mergeIssues [(⟨some "A", 1⟩ : Issue), ⟨some "B", 2⟩]
        [⟨some "A", 1⟩, ⟨some "B", 2⟩]
      = [⟨some "A", 1⟩, ⟨some "B", 2⟩] :=
  claim9_roundtrip_merge_self _ (by decide) (by decide)

/-- C10: duplicate ids inside the input lists — the value surviving at
id `k` is the last entry of the concatenated input with that id (so
within a single list the last occurrence wins), and the merge's id
sequence is the first-occurrence deduplication of the inputs' truthy
ids (the survivor keeps the position where its id first appeared). -/
theorem claim10_merge_last_wins (L R : List Issue) (k : String) (v : Issue)
    (h : lastWith (L ++ R) k = some v) :
    (mergeIssues L R).find? (fun i => truthyId i == some k) = some v
    ∧ (mergeIssues L R).map truthyId =
        (dedupF ((L ++ R).filterMap truthyId)).map some :=
  ⟨by rw [mergeIssues_find, h], mergeIssues_map_truthyId L R⟩

/-- Witness for C10 on a local list with a duplicated id `A`: the later
entry survives at the first-occurrence position. -/
theorem claim10_witness :
    (mergeIssues [(⟨some "A", 1⟩ : Issue), ⟨some "B", 2⟩, ⟨some "A", 3⟩] []).find?
        (fun i => truthyId i == some "A") = some ⟨some "A", 3⟩
    ∧ (mergeIssues [(⟨some "A", 1⟩ : Issue), ⟨some "B", 2⟩, ⟨some "A", 3⟩] []).map truthyId =
        (dedupF (([(⟨some "A", 1⟩ : Issue), ⟨some "B", 2⟩, ⟨some "A", 3⟩] ++
          ([] : List Issue)).filterMap truthyId)).map some :=
  claim10_merge_last_wins _ _ "A" ⟨some "A", 3⟩ (by decide)

/-! ### Claim theorems: scoring and candidate ranking -/

theorem pickCandidate_spec (urls : List String) :
    (pickCandidate urls = "" ↔
      (surviveFilters urls = [] ∨ ∀ v ∈ surviveFilters urls, scoreImage v < 1))
    ∧ (pickCandidate urls ≠ "" →
        pickCandidate urls ∈ surviveFilters urls
        ∧ 1 ≤ scoreImage (pickCandidate urls)
        ∧ ∀ v ∈ surviveFilters urls,
            scoreImage v ≤ scoreImage (pickCandidate urls)) := by
  cases hs : sortByScoreDesc (surviveFilters urls) with
  | nil =>
    have hpc : pickCandidate urls = "" := by
      unfold pickCandidate
      rw [hs]
    have hsf : surviveFilters urls = [] := by
      have hperm := List.perm_insertionSort
        (fun a b => scoreImage b ≤ scoreImage a) (surviveFilters urls)
      rw [show (surviveFilters urls).insertionSort
        (fun a b => scoreImage b ≤ scoreImage a) = [] from hs] at hperm
      exact hperm.symm.eq_nil
    refine ⟨⟨fun _ => Or.inl hsf, fun _ => hpc⟩, fun hne => absurd hpc hne⟩
  | cons best t =>
    have hmem : best ∈ surviveFilters urls := by
      have hb : best ∈ sortByScoreDesc (surviveFilters urls) := by
        rw [hs]
        exact .head _
      exact (sortByScoreDesc_mem _ _).mp hb
    have hmax : ∀ v ∈ surviveFilters urls, scoreImage v ≤ scoreImage best :=
      sortByScoreDesc_head_max _ best t hs
    have hbne : best ≠ "" := by
      unfold surviveFilters at hmem
      have h1 := (List.mem_filter.mp hmem).1
      have h2 := (List.mem_filter.mp h1).1
      have h3 := (List.mem_filter.mp h2).2
      simpa using h3
    by_cases hb : scoreImage best < 1
    · have hpc : pickCandidate urls = "" := by
        unfold pickCandidate
        rw [hs]
        exact if_pos hb
      refine ⟨⟨fun _ => Or.inr (fun v hv => lt_of_le_of_lt (hmax v hv) hb),
        fun _ => hpc⟩, fun hne => absurd hpc hne⟩
    · have hpc : pickCandidate urls = best := by
        unfold pickCandidate
        rw [hs]
        exact if_neg hb
      rw [hpc]
      refine ⟨⟨fun he => absurd he hbne, ?_⟩,
        fun _ => ⟨hmem, not_lt.mp hb, hmax⟩⟩
      rintro (hor | hor)
      · rw [hor] at hmem
        cases hmem
      · exact absurd (hor best hmem) hb

/-- C4: a URL whose lowercase form contains the substring `"logo"`
scores strictly below the acceptance threshold of 1, whatever
content-hint words, accepted extensions or size hints it also
contains. -/
theorem claim4_logo_below_threshold (u : String)
    (h : hasSubL "logo".data (lowerOf u) = true) : scoreImage u < 1 := by
  have hlogo : isLogoish u = true :=
    List.any_eq_true.mpr ⟨"logo", by decide, h⟩
  unfold scoreImage
  rw [hlogo]
  cases h1 : hintWords.any (fun w => hasSubL w.data (lowerOf u)) <;>
    cases h2 : goodExt u <;>
    cases h3 : sizeHints.any (fun w => hasSubL w.data (lowerOf u)) <;>
    cases h4 : isBadExt u <;>
    decide

/-- Witness for C4: a URL with a hint word, a size hint and a good
extension, but containing `LOGO`. -/
theorem claim4_witness :
    hasSubL "logo".data (lowerOf "https://ex.com/LOGO-hero-1200.jpg") = true
    ∧ scoreImage "https://ex.com/LOGO-hero-1200.jpg" < 1 :=
  ⟨by decide, claim4_logo_below_threshold _ (by decide)⟩

theorem pickCandidate_no_bad_ext (urls : List String) (u : String)
    (h : isBadExt u = true) : pickCandidate urls ≠ u := by
  have hne : u ≠ "" := by
    intro he
    rw [he] at h
    exact absurd h (by decide)
  intro he
  have hret : pickCandidate urls ≠ "" := by
    rw [he]
    exact hne
  have hmem := ((pickCandidate_spec urls).2 hret).1
  have hbad : isBadExt (pickCandidate urls) = false := by
    unfold surviveFilters at hmem
    have h1 := (List.mem_filter.mp hmem).1
    have h2 := (List.mem_filter.mp h1).2
    simpa using h2
  rw [he, h] at hbad
  cases hbad

/-- C5: a URL with a disallowed extension (`.svg` or `.gif`, optionally
followed by a query string) is never the candidate returned by
`resolveArticleImage`: the pre-filter removes it before ranking, even
when its score reaches the acceptance threshold. -/
theorem claim5_bad_ext_never_returned (proxy : String)
    (response : Option (List String)) (u : String)
    (h : isBadExt u = true) : resolveArticleImage proxy response ≠ u := by
  have hne : u ≠ "" := by
    intro he
    rw [he] at h
    exact absurd h (by decide)
  unfold resolveArticleImage
  by_cases hp : (proxy == "") = true
  · rw [if_pos hp]
    exact fun he => hne he.symm
  · rw [if_neg hp]
    cases response with
    | none => exact fun he => hne he.symm
    | some urls => exact pickCandidate_no_bad_ext urls u h

/-- Witness for C5: `.svg` URL scoring 2 (hint +10, size +2, bad
extension −10), at or above the threshold, still never returned. -/
theorem claim5_witness :
    isBadExt "https://a.com/hero-1200.svg" = true
    ∧ scoreImage "https://a.com/hero-1200.svg" = 2
    ∧ resolveArticleImage "https://r.jina.ai/https://x.y/z"
        (some ["https://a.com/hero-1200.svg"]) ≠ "https://a.com/hero-1200.svg" :=
  ⟨by decide, by decide, claim5_bad_ext_never_returned _ _ _ (by decide)⟩

/-- C6: `resolveArticleImage` returns the empty string when the target
URL is unparseable (empty proxy), when the proxy response is not
successful, when no candidate survives the dedup/extension/logo
filters, or when the best surviving score is below 1; in every other
case it returns a surviving candidate of maximal score, at least 1. -/
theorem claim6_resolve_behaviour (proxy : String)
    (response : Option (List String)) :
    (proxy = "" → resolveArticleImage proxy response = "")
    ∧ (response = none → resolveArticleImage proxy response = "")
    ∧ ∀ urls, response = some urls → proxy ≠ "" →
        ((resolveArticleImage proxy response = "" ↔
          (surviveFilters urls = [] ∨
            ∀ v ∈ surviveFilters urls, scoreImage v < 1))
        ∧ (resolveArticleImage proxy response ≠ "" →
            resolveArticleImage proxy response ∈ surviveFilters urls
            ∧ 1 ≤ scoreImage (resolveArticleImage proxy response)
            ∧ ∀ v ∈ surviveFilters urls,
                scoreImage v ≤ scoreImage (resolveArticleImage proxy response))) := by
  refine ⟨?_, ?_, ?_⟩
  · intro h
    subst h
    simp [resolveArticleImage]
  · intro h
    subst h
    unfold resolveArticleImage
    split <;> rfl
  · intro urls he hp
    subst he
    have hr : resolveArticleImage proxy (some urls) = pickCandidate urls := by
      unfold resolveArticleImage
      rw [if_neg (by simpa using hp)]
    rw [hr]
    exact pickCandidate_spec urls

/-- Witness for C6: a successful scrape with one good and one logo
candidate returns the good one with its maximal score. -/
theorem claim6_witness :
    resolveArticleImage "https://r.jina.ai/https://x.y/z"
        (some ["https://a.com/logo.png", "https://a.com/uploads/photo.jpg"]) ≠ ""
    ∧ resolveArticleImage "https://r.jina.ai/https://x.y/z"
        (some ["https://a.com/logo.png", "https://a.com/uploads/photo.jpg"]) ∈
      surviveFilters ["https://a.com/logo.png", "https://a.com/uploads/photo.jpg"]
    ∧ 1 ≤ scoreImage (resolveArticleImage "https://r.jina.ai/https://x.y/z"
        (some ["https://a.com/logo.png", "https://a.com/uploads/photo.jpg"])) := by
  have h := (claim6_resolve_behaviour "https://r.jina.ai/https://x.y/z"
    (some ["https://a.com/logo.png", "https://a.com/uploads/photo.jpg"])).2.2
    ["https://a.com/logo.png", "https://a.com/uploads/photo.jpg"] rfl (by decide)
  have hne : resolveArticleImage "https://r.jina.ai/https://x.y/z"
      (some ["https://a.com/logo.png", "https://a.com/uploads/photo.jpg"]) ≠ "" := by
    decide
  exact ⟨hne, (h.2 hne).1, (h.2 hne).2.1⟩

/-! ### Claim theorems: routing -/

/-- C7 counterexample: `"#/issue/a/b"` matches none of the shapes the
claim lists (`""`, `"#/"`, `"#/issue/<id>"` with the whole rest as the
single parameter), yet it does not fall back to the home view — it
parses to the issue view with parameter `"a"`. -/
theorem claim7_counterexample :
    parseHashFromString "#/issue/a/b" = ⟨"issue", ["a"]⟩
    ∧ parseHashFromString "#/issue/a/b" ≠ ⟨"home", []⟩ :=
  ⟨by decide, by decide⟩

/-- C7 amended: `""` and `"#/"` parse to the home view with no
parameters, the issue permalink parses to the issue view with the id as
its single parameter, and every other string parses to the home view
unless its non-empty `/`-segments (after stripping one leading `#`)
start with `"issue"` followed by at least one further segment — then it
parses to the issue view with the first such segment as the single
parameter. -/
theorem claim7_routes_amended :
    parseHashFromString "" = ⟨"home", []⟩
    ∧ parseHashFromString "#/" = ⟨"home", []⟩
    ∧ parseHashFromString "#/issue/2025-08-18_2025-08-24" =
        ⟨"issue", ["2025-08-18_2025-08-24"]⟩
    ∧ ∀ s : String,
        (∀ p rest, segmentsOf s = "issue" :: p :: rest →
          p ≠ "" ∧ parseHashFromString s = ⟨"issue", [p]⟩)
        ∧ ((∀ p rest, segmentsOf s ≠ "issue" :: p :: rest) →
          parseHashFromString s = ⟨"home", []⟩) := by
  refine ⟨by decide, by decide, by decide, ?_⟩
  intro s
  constructor
  · intro p rest hs
    have hmem : p ∈ segmentsOf s := by
      rw [hs]
      exact .tail _ (.head _)
    have hp1 : p ≠ "" := by
      unfold segmentsOf at hmem
      have hf := (List.mem_filter.mp hmem).2
      simpa using hf
    have hpr : parseHashFromString s =
        if "issue" == "issue" && p != "" then ⟨"issue", [p]⟩ else ⟨"home", []⟩ := by
      unfold parseHashFromString
      rw [hs]
    have hc : ("issue" == "issue" && p != "") = true := by simp [hp1]
    refine ⟨hp1, ?_⟩
    rw [hpr, if_pos hc]
  · intro hne
    cases hs : segmentsOf s with
    | nil =>
      unfold parseHashFromString
      rw [hs]
    | cons p0 rest0 =>
      cases rest0 with
      | nil =>
        unfold parseHashFromString
        rw [hs]
      | cons p1 rest =>
        have hpr : parseHashFromString s =
            if p0 == "issue" && p1 != "" then ⟨"issue", [p1]⟩ else ⟨"home", []⟩ := by
          unfold parseHashFromString
          rw [hs]
        have h0 : p0 ≠ "issue" := by
          intro h
          exact hne p1 rest (by rw [hs, h])
        have hc : ¬((p0 == "issue" && p1 != "") = true) := by simp [h0]
        rw [hpr, if_neg hc]

/-! ### Claim theorems: admin import -/

/-- C8: the import is applied iff the pasted text parses to a truthy
value with an `issues` array in which every issue has a truthy id; on
success the payload is merged into the store with no error, and on any
violation the store is left completely unchanged and a message is
shown, extended by the backslash hint exactly when the text contains a
backslash followed by a character that is not a legal JSON escape. -/
theorem claim8_import_validation (p : Except String ParsedPayload)
    (text : List Char) (store : List Issue) :
    ((∃ l, validateImport p = .ok l) ↔
      ∃ pl, p = .ok pl ∧ pl.truthyVal = true
        ∧ ∃ l, pl.issues = some l ∧ ∀ i ∈ l, (truthyId i).isSome)
    ∧ (∀ l, validateImport p = .ok l →
        handleImport p text store = (applyImport store l, none))
    ∧ (∀ m, validateImport p = .error m →
        handleImport p text store =
          (store, some (m ++ if badBackslash text then backslashHint else ""))) := by
  have hh : ∀ l, validateImport p = .ok l →
      handleImport p text store = (applyImport store l, none) := by
    intro l hl
    unfold handleImport
    rw [hl]
  have he : ∀ m, validateImport p = .error m →
      handleImport p text store =
        (store, some (m ++ if badBackslash text then backslashHint else "")) := by
    intro m hm
    unfold handleImport
    rw [hm]
  refine ⟨?_, hh, he⟩
  cases p with
  | error m =>
    constructor
    · rintro ⟨l, hl⟩
      rw [show validateImport (.error m) = .error m from rfl] at hl
      cases hl
    · rintro ⟨pl, hpl, -⟩
      cases hpl
  | ok pl =>
    cases htv : pl.truthyVal with
    | false =>
      have hv : validateImport (.ok pl) = .error missingIssuesMsg := by
        simp [validateImport, htv]
      constructor
      · rintro ⟨l, hl⟩
        rw [hv] at hl
        cases hl
      · rintro ⟨pl', hpl, htv', -⟩
        obtain rfl : pl = pl' := by injection hpl
        rw [htv] at htv'
        cases htv'
    | true =>
      cases hiss : pl.issues with
      | none =>
        have hv : validateImport (.ok pl) = .error missingIssuesMsg := by
          simp [validateImport, htv, hiss]
        constructor
        · rintro ⟨l, hl⟩
          rw [hv] at hl
          cases hl
        · rintro ⟨pl', hpl, -, l, hiss', -⟩
          obtain rfl : pl = pl' := by injection hpl
          rw [hiss] at hiss'
          cases hiss'
      | some l' =>
        by_cases hall : l'.all (fun i => (truthyId i).isSome) = true
        · have hv : validateImport (.ok pl) = .ok l' := by
            simp [validateImport, htv, hiss, hall]
          constructor
          · rintro -
            exact ⟨pl, rfl, htv, l', hiss,
              fun i hi => List.all_eq_true.mp hall i hi⟩
          · rintro -
            exact ⟨l', hv⟩
        · have hv : validateImport (.ok pl) = .error missingIdMsg := by
            simp [validateImport, htv, hiss, hall]
          constructor
          · rintro ⟨l, hl⟩
            rw [hv] at hl
            cases hl
          · rintro ⟨pl', hpl, -, l, hiss', hfa⟩
            obtain rfl : pl = pl' := by injection hpl
            rw [hiss] at hiss'
            obtain rfl : l' = l := by injection hiss'
            exact absurd (List.all_eq_true.mpr (fun i hi => hfa i hi)) hall

/-- Witness for C8: a valid payload is applied with no error; an
invalid one (empty id) leaves the store unchanged and, because the text
contains `\q`, the message carries the backslash hint. -/
theorem claim8_witness :
    handleImport (.ok ⟨true, some [⟨some "A", 1⟩]⟩) "a\\q".data [] =
        (applyImport [] [⟨some "A", 1⟩], none)
    ∧ handleImport (.ok ⟨true, some [⟨some "", 9⟩]⟩) "a\\q".data
        [⟨some "B", 2⟩] =
        ([⟨some "B", 2⟩], some (missingIdMsg ++ backslashHint)) :=
  ⟨(claim8_import_validation _ _ _).2.1 [⟨some "A", 1⟩] rfl, by decide⟩

/-- Witness for C7 amended: the issue-shaped route `"#/issue/a/b"` is
forced to the issue view with parameter `"a"`. -/
theorem claim7_witness :
    ("a" : String) ≠ "" ∧ parseHashFromString "#/issue/a/b" = ⟨"issue", ["a"]⟩ :=
  (claim7_routes_amended.2.2.2 "#/issue/a/b").1 "a" ["b"] (by decide)
